import Mathlib

/-!
Verification of the point-cloud cutaway renderer (src/main.rs, src/input.rs).

The development shallow-embeds:
 * the background loader loop of `load_point_cloud` (main.rs lines 941-976),
 * the RGBA raster with `put_pixel`/`get_pixel` (the `image` crate semantics:
   `put_pixel`/`get_pixel` panic when the coordinate is out of bounds, which is
   modelled by `Option`),
 * the Bresenham line iterator of the `line_drawing` crate,
 * the Pencil/Eraser/RoomIdentification tool dispatch (main.rs lines 593-672),
 * the boundary-linking stamping pass (main.rs lines 855-878), and
 * the `MouseManager` state machine (input.rs).
-/

namespace PointCloudCutaway

/-! ## PointBatchStream: the loader loop of `load_point_cloud`

The reader is modelled as the list of results of successive `reader.read()`
calls: `some p` is a well-formed record, `none` is a malformed record (an
`Err`), and the end of the list is end-of-data.  The mpsc channel is modelled
as the list of batches sent, in order.  `load_loop n B reads batch processed`
is the body of the `while let Some(Ok(point)) = reader.read()` loop, with
accumulator `batch` and counter `points_processed`. -/

def BATCH_SIZE : Nat := 500000

def load_loop (n B : Nat) : List (Option α) → List α → Nat → List (List α)
  | [], _, _ => []
  | none :: _, _, _ => []
  | some p :: rest, batch, processed =>
    let batch' := batch ++ [p]
    let pr := processed + 1
    if pr % B = 0 then
      if pr > n then [batch', []]
      else batch' :: load_loop n B rest [] pr
    else if pr > n then [batch']
    else load_loop n B rest batch' pr

/-- The batches sent on the channel by the thread spawned in
`load_point_cloud`, given the reader results `reads`, the effective total `n`
and the batch size `B`. -/
def load_batches (reads : List (Option α)) (n B : Nat) : List (List α) :=
  load_loop n B reads [] 0

/-- `n` as computed in `load_point_cloud`: the `--num-points` argument if
nonzero, otherwise the total declared by the reader header. -/
def effective_total (num_points total_points : Nat) : Nat :=
  if num_points = 0 then total_points else num_points

/-! ## The RGBA raster

`image::RgbaImage` is a `width × height` grid of `Rgba` pixels stored
row-major; `get_pixel`/`put_pixel` index the flattened buffer at
`y * width + x` and panic when `x ≥ width` or `y ≥ height` (modelled with
`Option`).  `Image.Wf` is the buffer-size invariant every image produced by
the crate satisfies. -/

structure Rgba where
  r : Nat
  g : Nat
  b : Nat
  a : Nat
deriving DecidableEq

/-- The outline colour (0,0,0,255) stamped by the Pencil and the linker. -/
def outline_black : Rgba := ⟨0, 0, 0, 255⟩

/-- The transparent white (255,255,255,0) written by the Eraser. -/
def clear_white : Rgba := ⟨255, 255, 255, 0⟩

/-- Left-click room-identification target colour (0,0,255,0). -/
def blue_label : Rgba := ⟨0, 0, 255, 0⟩

/-- Right-click room-identification target colour (255,0,0,0). -/
def red_label : Rgba := ⟨255, 0, 0, 0⟩

structure Image where
  width : Nat
  height : Nat
  data : List Rgba
deriving DecidableEq

def Image.Wf (img : Image) : Prop := img.data.length = img.width * img.height

instance (img : Image) : Decidable img.Wf := Nat.decEq _ _

def Image.inBounds (img : Image) (p : Nat × Nat) : Prop :=
  p.1 < img.width ∧ p.2 < img.height

instance (img : Image) (p : Nat × Nat) : Decidable (img.inBounds p) :=
  instDecidableAnd

def Image.get_pixel (img : Image) (p : Nat × Nat) : Rgba :=
  img.data.getD (p.2 * img.width + p.1) ⟨0, 0, 0, 0⟩

def Image.set_pixel (img : Image) (p : Nat × Nat) (c : Rgba) : Image :=
  { img with data := img.data.set (p.2 * img.width + p.1) c }

/-- `put_pixel` of the image crate: writes the pixel, panicking (`none`) when
the coordinate is out of bounds. -/
def Image.put_pixel (img : Image) (p : Nat × Nat) (c : Rgba) : Option Image :=
  if img.inBounds p then some (img.set_pixel p c) else none

/-- `get_pixel` of the image crate: reads the pixel, panicking (`none`) when
the coordinate is out of bounds. -/
def Image.read_pixel (img : Image) (p : Nat × Nat) : Option Rgba :=
  if img.inBounds p then some (img.get_pixel p) else none

/-- Sequentially `put_pixel` the colour `c` at every coordinate of `l`
(a Rust for-loop over `put_pixel` calls; the first panic aborts). -/
def put_list (c : Rgba) : Image → List (Nat × Nat) → Option Image
  | img, [] => some img
  | img, p :: rest => (img.put_pixel p c).bind (fun img2 => put_list c img2 rest)

/-- The Rust `as u32` cast of an `i32`/`i64` value: two's-complement wrap. -/
def asU32 (i : Int) : Nat := (i % 4294967296).toNat

/-! ## Bresenham (`line_drawing` crate)

`Octant::new`, `to_octant0`, `from_octant0` and the `Bresenham` iterator,
embedded with the exact iteration count `end_x - start_x + 1` of the octant-0
loop as fuel. -/

def octant_value (start stop : Int × Int) : Nat :=
  let dx := stop.1 - start.1
  let dy := stop.2 - start.2
  let (dx, dy, v) := if dy < 0 then (-dx, -dy, 4) else (dx, dy, 0)
  let (dx, dy, v) := if dx < 0 then (dy, -dx, v + 2) else (dx, dy, v)
  if dx < dy then v + 1 else v

def to_octant0 (v : Nat) (p : Int × Int) : Int × Int :=
  match v with
  | 0 => (p.1, p.2)
  | 1 => (p.2, p.1)
  | 2 => (p.2, -p.1)
  | 3 => (-p.1, p.2)
  | 4 => (-p.1, -p.2)
  | 5 => (-p.2, -p.1)
  | 6 => (-p.2, p.1)
  | _ => (p.1, -p.2)

def from_octant0 (v : Nat) (p : Int × Int) : Int × Int :=
  match v with
  | 0 => (p.1, p.2)
  | 1 => (p.2, p.1)
  | 2 => (-p.2, p.1)
  | 3 => (-p.1, p.2)
  | 4 => (-p.1, -p.2)
  | 5 => (-p.2, -p.1)
  | 6 => (p.2, -p.1)
  | _ => (p.1, -p.2)

def bres_loop (v : Nat) (deltaX deltaY endX : Int) :
    Nat → Int × Int → Int → List (Int × Int)
  | 0, _, _ => []
  | fuel + 1, point, error =>
    if point.1 ≤ endX then
      from_octant0 v point ::
        (if error ≥ 0 then
          bres_loop v deltaX deltaY endX fuel (point.1 + 1, point.2 + 1)
            (error - deltaX + deltaY)
        else
          bres_loop v deltaX deltaY endX fuel (point.1 + 1, point.2)
            (error + deltaY))
    else []

/-- The pixels yielded by `line_drawing::Bresenham::new(start, stop)`,
in iteration order. -/
def bresenham (start stop : Int × Int) : List (Int × Int) :=
  let v := octant_value start stop
  let s := to_octant0 v start
  let e := to_octant0 v stop
  bres_loop v (e.1 - s.1) (e.2 - s.2) e.1 ((e.1 - s.1).toNat + 1) s
    ((e.2 - s.2) - (e.1 - s.1))

/-! ## The drawing tools (main.rs lines 593-672) -/

/-- Pencil: stamp every path pixel `(lx, ly)` with
`put_pixel(lx as u32, ly as u32, (0,0,0,255))`. -/
def pencil_stroke (img : Image) (last pos : Int × Int) : Option Image :=
  put_list outline_black img
    ((bresenham last pos).map (fun l => (asU32 l.1, asU32 l.2)))

/-- The offsets traversed by the eraser ranges `(l-5)..(l+5)`: the Rust
half-open range yields `l-5, …, l+4`. -/
def eraser_offsets : List Int := [-5, -4, -3, -2, -1, 0, 1, 2, 3, 4]

/-- Eraser stamp at path pixel `(lx, ly)`: `for cy in (ly-5)..(ly+5)`,
`for cx in (lx-5)..(lx+5)`, `if (cx-lx)²+(cy-ly)² ≤ 5*5` then
`put_pixel(cx as u32, cy as u32, (255,255,255,0))`, rendered as the
sequential `put_list` over the traversal order of the two loops. -/
def eraser_stamp (img : Image) (l : Int × Int) : Option Image :=
  put_list clear_white img
    (eraser_offsets.flatMap (fun dy =>
      (eraser_offsets.filter (fun dx => dx * dx + dy * dy ≤ 25)).map
        (fun dx => (asU32 (l.1 + dx), asU32 (l.2 + dy)))))

/-- Eraser over the whole interpolated path. -/
def eraser_stroke (img : Image) (last pos : Int × Int) : Option Image :=
  (bresenham last pos).foldlM eraser_stamp img

/-! ## RoomIdentification flood fill (main.rs lines 623-666) -/

/-- The in-bounds 4-neighbours pushed for a processed pixel, in source push
order: left (`x > 0`), up (`y > 0`), right (`x < width-1`), down
(`y < height-1`). -/
def neighbor_pushes (img : Image) (p : Nat × Nat) : List (Nat × Nat) :=
  (if 0 < p.1 then [(p.1 - 1, p.2)] else []) ++
  (if 0 < p.2 then [(p.1, p.2 - 1)] else []) ++
  (if p.1 < img.width - 1 then [(p.1 + 1, p.2)] else []) ++
  (if p.2 < img.height - 1 then [(p.1, p.2 + 1)] else [])

/-- The `while let Some(point) = stack.pop()` loop.  The stack is the list
with its head as the `Vec` top, so the pushes appear reversed in front of the
remaining stack.  `none` means the fuel ran out (the concrete fuel used by
`flood_fill` is proved sufficient). -/
def flood_loop (start_colour target : Rgba) :
    Nat → Image → List (Nat × Nat) → Option Image
  | _, img, [] => some img
  | 0, _, _ :: _ => none
  | fuel + 1, img, p :: rest =>
    if img.get_pixel p ≠ start_colour then
      flood_loop start_colour target fuel img rest
    else
      flood_loop start_colour target fuel (img.set_pixel p target)
        ((neighbor_pushes img p).reverse ++ rest)

/-- Fuel bound: the loop measure is `5 * (number of seed-coloured pixels) +
stack length`, which starts at `5 * count + 1`. -/
def flood_fuel (img : Image) (c : Rgba) : Nat := 5 * img.data.count c + 2

/-- The RoomIdentification fill: read the start pixel (panicking when the
pointer is outside the raster), abort unless the seed colour differs from
both outline black and the target, then run the stack loop from the seed. -/
def flood_fill (img : Image) (start : Nat × Nat) (target : Rgba) : Option Image :=
  (img.read_pixel start).bind (fun start_colour =>
    if start_colour ≠ outline_black ∧ start_colour ≠ target then
      flood_loop start_colour target (flood_fuel img start_colour) img [start]
    else
      some img)

/-- 4-neighbour adjacency of pixel coordinates. -/
def Adj (p q : Nat × Nat) : Prop :=
  (q.1 = p.1 + 1 ∧ q.2 = p.2) ∨ (p.1 = q.1 + 1 ∧ q.2 = p.2) ∨
  (q.2 = p.2 + 1 ∧ q.1 = p.1) ∨ (p.2 = q.2 + 1 ∧ q.1 = p.1)

/-- Reachability from `s` through in-bounds pixels of colour `c`: the
4-connected component the flood fill floods. -/
inductive Reaches (img : Image) (c : Rgba) (s : Nat × Nat) : Nat × Nat → Prop
  | refl (h : img.inBounds s) (hc : img.get_pixel s = c) : Reaches img c s s
  | step (q r : Nat × Nat) (hq : Reaches img c s q) (ha : Adj q r)
      (hr : img.inBounds r) (hc : img.get_pixel r = c) : Reaches img c s r

/-- Reachability from some element of the work stack. -/
def ReachFrom (img : Image) (c : Rgba) (stack : List (Nat × Nat))
    (p : Nat × Nat) : Prop :=
  ∃ q ∈ stack, Reaches img c q p

/-- Connectivity inside the pixel set `S`, starting from `a`. -/
inductive ConnIn (S : List (Nat × Nat)) (a : Nat × Nat) : Nat × Nat → Prop
  | refl : ConnIn S a a
  | step (q r : Nat × Nat) (h : ConnIn S a q) (ha : Adj q r) (hr : r ∈ S) :
      ConnIn S a r

/-! ## Boundary linking (main.rs lines 855-878) -/

/-- Modelled from the spec: the `kd_tree::KdTree::within_radius` query of the
external kd-tree crate, which returns every stored point within the given
radius of the query point.  Only used to instantiate the `query` parameter of
`link_boundary`; the linking theorems hold for any query function. -/
def within_radius (pts : List (Int × Int)) (q : Int × Int) (r : Int) :
    List (Int × Int) :=
  pts.filter (fun p => (p.1 - q.1) * (p.1 - q.1) + (p.2 - q.2) * (p.2 - q.2) ≤ r * r)

/-- The pixels stamped by the linking pass: for every boundary point `p`, for
every close point `q` returned by the radius query, every Bresenham pixel of
the segment `p → q`, cast with `as u32`. -/
def link_pixels (query : List (Int × Int) → Int × Int → List (Int × Int))
    (pts : List (Int × Int)) : List (Nat × Nat) :=
  pts.flatMap (fun p => (query pts p).flatMap (fun q =>
    (bresenham p q).map (fun l => (asU32 l.1, asU32 l.2))))

/-- The boundary-linking pass: stamp `(0,0,0,255)` over every linked pixel,
in traversal order. -/
def link_boundary (query : List (Int × Int) → Int × Int → List (Int × Int))
    (pts : List (Int × Int)) (img : Image) : Option Image :=
  put_list outline_black img (link_pixels query pts)

/-! ## MouseManager (input.rs)

The `HashMap<MouseButton, MouseButtonState>` is modelled as its lookup
function `MouseButton → MouseButtonState` with the source's default
`Released` for absent keys (`on_new_frame` maps the stored values pointwise
and fixes `Pressed`/`Released`, so the function model is exact).  The
float-valued `position`/`last_position` fields are not needed by the claims
about button state. -/

inductive MouseButton where
  | left
  | right
  | middle
  | other (n : Nat)
deriving DecidableEq

inductive MouseButtonState where
  | pressed
  | released
  | justPressed
  | justReleased
deriving DecidableEq

inductive ElemState where
  | pressed
  | released
deriving DecidableEq

structure MouseManager where
  state : MouseButton → MouseButtonState

def MouseManager.new : MouseManager := ⟨fun _ => MouseButtonState.released⟩

/-- `MouseManager::update`: insert `JustPressed`/`JustReleased` for the
reported button. -/
def MouseManager.update (m : MouseManager) (button : MouseButton)
    (s : ElemState) : MouseManager :=
  ⟨fun b => if b = button then
      match s with
      | ElemState.pressed => MouseButtonState.justPressed
      | ElemState.released => MouseButtonState.justReleased
    else m.state b⟩

/-- The per-entry action of `MouseManager::on_new_frame`. -/
def settle_state : MouseButtonState → MouseButtonState
  | MouseButtonState.justPressed => MouseButtonState.pressed
  | MouseButtonState.justReleased => MouseButtonState.released
  | s => s

/-- `MouseManager::on_new_frame`: map every stored `JustPressed` to `Pressed`
and `JustReleased` to `Released`. -/
def MouseManager.on_new_frame (m : MouseManager) : MouseManager :=
  ⟨fun b => settle_state (m.state b)⟩

/-- `MouseManager::button_state`: lookup with default `Released`. -/
def MouseManager.button_state (m : MouseManager) (button : MouseButton) :
    MouseButtonState :=
  m.state button

/-- `MouseManager::is_pressed`. -/
def MouseManager.is_pressed (m : MouseManager) (button : MouseButton) : Bool :=
  match m.state button with
  | MouseButtonState.justPressed => true
  | MouseButtonState.pressed => true
  | MouseButtonState.justReleased => false
  | MouseButtonState.released => false

/-! ## Concrete rasters used by witnesses and counterexamples -/

def demo_white : Rgba := ⟨255, 255, 255, 255⟩

/-- The spec's end-to-end scenario raster: 10×10, all white except a
3×3 black-bordered square over columns/rows 3-5 whose 1×1 interior (4,4)
stays white. -/
def demo10 : Image :=
  { width := 10, height := 10,
    data := (List.range 100).map (fun i =>
      if i = 33 ∨ i = 34 ∨ i = 35 ∨ i = 43 ∨ i = 45 ∨ i = 53 ∨ i = 54 ∨ i = 55
      then outline_black else demo_white) }

/-- A plain all-white 10×10 raster. -/
def white10 : Image := ⟨10, 10, List.replicate 100 demo_white⟩

/-- An 11×11 raster of a uniform grey, large enough to hold a full eraser
disk around (5,5). -/
def grey_col : Rgba := ⟨100, 100, 100, 255⟩

def grey11 : Image := ⟨11, 11, List.replicate 121 grey_col⟩

/-- A 2×2 raster: one black pixel at (1,0), white elsewhere. -/
def tiny2 : Image := ⟨2, 2, [demo_white, outline_black, demo_white, demo_white]⟩

/-- Running the loop over a chunk of well-formed records that triggers neither
the `points_processed % BATCH_SIZE == 0` send nor the `points_processed > n`
cutoff just accumulates the chunk into the batch. -/
theorem load_loop_fill (n B : Nat) (chunk : List α) :
    ∀ (rest : List (Option α)) (batch : List α) (k : Nat),
    (∀ i, i < chunk.length → (k + i + 1) % B ≠ 0) →
    (∀ i, i < chunk.length → ¬(k + i + 1 > n)) →
    load_loop n B (chunk.map some ++ rest) batch k =
      load_loop n B rest (batch ++ chunk) (k + chunk.length) := by
  induction chunk with
  | nil => intro rest batch k _ _; simp
  | cons p chunk ih =>
    intro rest batch k hmod hcut
    have h0 : (k + 0 + 1) % B ≠ 0 := hmod 0 (by simp)
    have h0' : ¬(k + 0 + 1 > n) := hcut 0 (by simp)
    have hmod' : ∀ i, i < chunk.length → (k + 1 + i + 1) % B ≠ 0 := by
      intro i hi
      have := hmod (i + 1) (by simpa using Nat.succ_lt_succ hi)
      simpa [Nat.add_assoc, Nat.add_comm, Nat.add_left_comm] using this
    have hcut' : ∀ i, i < chunk.length → ¬(k + 1 + i + 1 > n) := by
      intro i hi
      have := hcut (i + 1) (by simpa using Nat.succ_lt_succ hi)
      simpa [Nat.add_assoc, Nat.add_comm, Nat.add_left_comm] using this
    simp only [List.map_cons, List.cons_append, load_loop, List.append_eq]
    rw [if_neg (by simpa using h0), if_neg (by simpa using h0')]
    rw [ih rest (batch ++ [p]) (k + 1) hmod' hcut']
    simp [Nat.add_assoc, Nat.add_comm, Nat.add_left_comm]

theorem mod_step_ne_zero (B k i : Nat) (hk : k % B = 0) (hiB : i + 1 < B) :
    (k + i + 1) % B ≠ 0 := by
  have hq : B * (k / B) = k := by
    have := Nat.div_add_mod k B
    omega
  have h1 : (k + i + 1) % B = (i + 1) % B := by
    rw [Nat.add_assoc, ← hq, Nat.mul_add_mod]
  rw [h1, Nat.mod_eq_of_lt hiB]
  omega

theorem mod_full_eq_zero (B k : Nat) (hk : k % B = 0) : (k + B) % B = 0 := by
  rw [Nat.add_mod, hk, Nat.mod_self, Nat.add_zero, Nat.zero_mod]

theorem mod_add_left_cancel (B k m : Nat) (hk : k % B = 0) : (k + m) % B = m % B := by
  rw [Nat.add_mod, hk, Nat.zero_add, Nat.mod_mod_of_dvd m (dvd_refl B)]

/-- Consuming a chunk of exactly `B` well-formed records starting at a batch
boundary below the cutoff sends exactly one full batch and continues. -/
theorem load_loop_full_batch (n B : Nat) (hB : 0 < B) (chunk : List α)
    (hlen : chunk.length = B) (rest : List (Option α)) (k : Nat)
    (hk : k % B = 0) (hkB : k + B ≤ n) :
    load_loop n B (chunk.map some ++ rest) [] k =
      chunk :: load_loop n B rest [] (k + B) := by
  obtain ⟨front, last, rfl⟩ : ∃ front last, chunk = front ++ [last] := by
    rcases chunk.eq_nil_or_concat' with h | ⟨f, a, h⟩
    · subst h; simp at hlen; omega
    · exact ⟨f, a, h⟩
  have hfront : front.length + 1 = B := by simpa using hlen
  have hfill := load_loop_fill n B front (some last :: rest) [] k
    (fun i hi => mod_step_ne_zero B k i hk (by omega))
    (fun i hi => by omega)
  simp only [List.map_append, List.map_cons, List.map_nil, List.append_assoc,
    List.cons_append, List.nil_append] at hfill ⊢
  rw [hfill]
  simp only [load_loop, List.nil_append]
  have hpr : k + front.length + 1 = k + B := by omega
  rw [hpr, if_pos (mod_full_eq_zero B k hk), if_neg (by omega)]

/-- Consuming the chunk of records that reaches the `points_processed > n`
cutoff: the loop sends the accumulated batch (plus a trailing empty batch when
the cutoff lands exactly on a batch boundary) and stops, ignoring any further
reader results. -/
theorem load_loop_last_batch (n B : Nat) (hB : 0 < B) (chunk : List α)
    (rest : List (Option α)) (k : Nat)
    (hk : k % B = 0) (hm1 : 1 ≤ chunk.length) (hmB : chunk.length ≤ B)
    (hkm : k + chunk.length = n + 1) :
    load_loop n B (chunk.map some ++ rest) [] k =
      if chunk.length = B then [chunk, []] else [chunk] := by
  obtain ⟨front, last, rfl⟩ : ∃ front last, chunk = front ++ [last] := by
    rcases chunk.eq_nil_or_concat' with h | ⟨f, a, h⟩
    · subst h; simp at hm1
    · exact ⟨f, a, h⟩
  simp only [List.length_append, List.length_singleton] at hm1 hmB hkm ⊢
  have hfill := load_loop_fill n B front (some last :: rest) [] k
    (fun i hi => mod_step_ne_zero B k i hk (by omega))
    (fun i hi => by omega)
  simp only [List.map_append, List.map_cons, List.map_nil, List.append_assoc,
    List.cons_append, List.nil_append] at hfill ⊢
  rw [hfill]
  simp only [load_loop, List.nil_append]
  have hmod : (k + front.length + 1) % B = (front.length + 1) % B := by
    rw [Nat.add_assoc]; exact mod_add_left_cancel B k _ hk
  by_cases hfull : front.length + 1 = B
  · rw [if_pos hfull]
    rw [if_pos (by rw [hmod, hfull]; exact Nat.mod_self B), if_pos (by omega)]
  · rw [if_neg hfull]
    rw [if_neg (by rw [hmod, Nat.mod_eq_of_lt (by omega)]; omega),
      if_pos (by omega)]

/-- The exact lengths of the batches the loader loop sends, for an arbitrary
sequence of well-formed records, starting at a batch boundary `k ≤ n`:
while the reader lasts, one full batch per `B` records (any trailing partial
batch is dropped at end-of-data); if the `> n` cutoff is reached, the partial
batch is flushed (with a trailing empty batch when the cutoff lands exactly on
a batch boundary). -/
theorem load_loop_lengths (n B : Nat) (hB : 0 < B) :
    ∀ (L : Nat) (ps : List α), ps.length ≤ L → ∀ (k : Nat), k % B = 0 → k ≤ n →
    (load_loop n B (ps.map some) [] k).map List.length =
      if k + ps.length ≤ n then List.replicate (ps.length / B) B
      else List.replicate ((n + 1 - k) / B) B ++ [(n + 1 - k) % B] := by
  intro L
  induction L with
  | zero =>
    intro ps hps k hk hkn
    have : ps = [] := List.length_eq_zero.mp (by omega)
    subst this
    simp [load_loop, Nat.le_of_lt, hkn]
  | succ L ih =>
    intro ps hps k hk hkn
    by_cases hstep : B ≤ ps.length ∧ k + B ≤ n
    · -- a full batch is sent and the loop continues
      obtain ⟨hBT, hkB⟩ := hstep
      have hsplit : ps = ps.take B ++ ps.drop B := (List.take_append_drop B ps).symm
      have htake : (ps.take B).length = B := by
        rw [List.length_take]; omega
      have hdrop : (ps.drop B).length = ps.length - B := by simp
      conv_lhs => rw [hsplit]
      rw [List.map_append,
        load_loop_full_batch n B hB (ps.take B) htake ((ps.drop B).map some) k hk hkB]
      rw [List.map_cons, htake,
        ih (ps.drop B) (by omega) (k + B) (mod_full_eq_zero B k hk) (by omega)]
      have harith : k + B + (ps.drop B).length = k + ps.length := by
        rw [hdrop]; omega
      rw [harith]
      by_cases hend : k + ps.length ≤ n
      · rw [if_pos hend, if_pos hend, hdrop]
        have : ps.length / B = (ps.length - B) / B + 1 :=
          Nat.div_eq_sub_div hB hBT
        rw [this, List.replicate_succ]
      · rw [if_neg hend, if_neg hend]
        have hm : B ≤ n + 1 - k := by omega
        have h1 : n + 1 - (k + B) = n + 1 - k - B := by omega
        have h2 : (n + 1 - k) / B = (n + 1 - k - B) / B + 1 :=
          Nat.div_eq_sub_div hB hm
        have h3 : (n + 1 - k - B) % B = (n + 1 - k) % B := by
          conv_rhs => rw [show n + 1 - k = B + (n + 1 - k - B) by omega]
          rw [Nat.add_mod_left]
        rw [h1, h2, ← h3, List.replicate_succ, List.cons_append]
    · by_cases hend : k + ps.length ≤ n
      · -- end-of-data before the cutoff: the pending records are dropped
        have hTB : ps.length < B := by
          by_contra h
          exact hstep ⟨by omega, by omega⟩
        have hfill := load_loop_fill n B ps ([] : List (Option α)) [] k
          (fun i hi => mod_step_ne_zero B k i hk (by omega))
          (fun i hi => by omega)
        simp only [List.append_nil] at hfill
        rw [hfill]
        simp only [load_loop, List.map_nil]
        rw [if_pos hend, Nat.div_eq_of_lt hTB]
        simp
      · -- the cutoff is reached inside the current batch
        have hm1 : 1 ≤ n + 1 - k := by omega
        have hmT : n + 1 - k ≤ ps.length := by omega
        have hmB : n + 1 - k ≤ B := by
          by_contra h
          exact hstep ⟨by omega, by omega⟩
        set m := n + 1 - k with hm
        have hsplit : ps = ps.take m ++ ps.drop m := (List.take_append_drop m ps).symm
        have htake : (ps.take m).length = m := by
          rw [List.length_take]; omega
        conv_lhs => rw [hsplit]
        rw [List.map_append,
          load_loop_last_batch n B hB (ps.take m) ((ps.drop m).map some) k hk
            (by omega) (by omega) (by omega)]
        rw [if_neg hend]
        by_cases hfull : m = B
        · have htakeB : (ps.take m).length = B := by omega
          rw [if_pos htakeB]
          have hdiv : m / B = 1 := by rw [hfull]; exact Nat.div_self hB
          have hmod0 : m % B = 0 := by rw [hfull]; exact Nat.mod_self B
          rw [hdiv, hmod0, List.map_cons, List.map_cons, List.map_nil, htake, hfull]
          rfl
        · have htakeB : ¬(ps.take m).length = B := by omega
          rw [if_neg htakeB]
          rw [Nat.div_eq_of_lt (by omega), Nat.mod_eq_of_lt (by omega)]
          rw [List.map_cons, List.map_nil, htake]
          rfl

theorem succ_mod_eq_zero (B k : Nat) (hB : 0 < B) (h : (k + 1) % B = 0) :
    k % B + 1 = B := by
  rcases Nat.lt_or_ge B 2 with hB2 | hB2
  · have hB1 : B = 1 := by omega
    subst hB1
    simp [Nat.mod_one]
  · have h1 : (1 : Nat) % B = 1 := Nat.mod_eq_of_lt (by omega)
    have hm : k % B < B := Nat.mod_lt _ hB
    by_contra hne
    have hlt : k % B + 1 < B := by omega
    have heq : (k + 1) % B = k % B + 1 := by
      rw [Nat.add_mod, h1, Nat.mod_eq_of_lt hlt]
    omega

theorem succ_mod_ne_zero (B k : Nat) (hB : 0 < B) (h : (k + 1) % B ≠ 0) :
    (k + 1) % B = k % B + 1 := by
  rcases Nat.lt_or_ge B 2 with hB2 | hB2
  · have hB1 : B = 1 := by omega
    subst hB1
    simp [Nat.mod_one] at h
  · have h1 : (1 : Nat) % B = 1 := Nat.mod_eq_of_lt (by omega)
    have hm : k % B < B := Nat.mod_lt _ hB
    by_cases hlt : k % B + 1 < B
    · rw [Nat.add_mod, h1, Nat.mod_eq_of_lt hlt]
    · exfalso
      have hfull : k % B + 1 = B := by omega
      have : (k + 1) % B = 0 := by
        rw [Nat.add_mod, h1, hfull, Nat.mod_self]
      exact h this

theorem mem_dropLast_cons (a b : α) (l : List α) (h : b ∈ (a :: l).dropLast) :
    b = a ∨ b ∈ l.dropLast := by
  cases l with
  | nil => simp at h
  | cons x xs =>
    rw [List.dropLast_cons₂] at h
    rcases List.mem_cons.mp h with h2 | h2
    · exact Or.inl h2
    · exact Or.inr h2

/-- Every batch the loader loop sends has length at most `B`, and every batch
other than the last one sent has length exactly `B` (invariant: the pending
batch always holds `points_processed % BATCH_SIZE` records). -/
theorem load_loop_batch_sizes (n B : Nat) (hB : 0 < B) :
    ∀ (reads : List (Option α)) (batch : List α) (k : Nat), batch.length = k % B →
    (∀ b ∈ load_loop n B reads batch k, b.length ≤ B) ∧
    (∀ b ∈ (load_loop n B reads batch k).dropLast, b.length = B) := by
  intro reads
  induction reads with
  | nil => intro batch k _; simp [load_loop]
  | cons r rest ih =>
    intro batch k hbk
    have hmlt : k % B < B := Nat.mod_lt _ hB
    match r with
    | none => simp [load_loop]
    | some p =>
      simp only [load_loop]
      by_cases h1 : (k + 1) % B = 0
      · have hlenB : (batch ++ [p]).length = B := by
          have h2 := succ_mod_eq_zero B k hB h1
          simp only [List.length_append, List.length_singleton]
          omega
        by_cases h2 : k + 1 > n
        · rw [if_pos h1, if_pos h2]
          constructor
          · intro b hb
            rcases List.mem_cons.mp hb with rfl | hb2
            · omega
            · rcases List.mem_singleton.mp hb2 with rfl
              simp
          · intro b hb
            simp only [List.dropLast_cons₂, List.dropLast_single] at hb
            rcases List.mem_singleton.mp hb with rfl
            omega
        · rw [if_pos h1, if_neg h2]
          obtain ⟨iha, ihd⟩ := ih [] (k + 1) (by simp [h1])
          constructor
          · intro b hb
            rcases List.mem_cons.mp hb with rfl | hb2
            · omega
            · exact iha b hb2
          · intro b hb
            rcases mem_dropLast_cons _ _ _ hb with rfl | hb2
            · omega
            · exact ihd b hb2
      · have hlen : (batch ++ [p]).length = (k + 1) % B := by
          have h2 := succ_mod_ne_zero B k hB h1
          simp only [List.length_append, List.length_singleton]
          omega
        by_cases h2 : k + 1 > n
        · rw [if_neg h1, if_pos h2]
          constructor
          · intro b hb
            rcases List.mem_singleton.mp hb with rfl
            have h3 : (k + 1) % B < B := Nat.mod_lt _ hB
            omega
          · intro b hb
            simp at hb
        · rw [if_neg h1, if_neg h2]
          exact ih (batch ++ [p]) (k + 1) hlen

/-- Claim C2: at the failing input (a reader with 3 well-formed records and
`num_points = 0`, so `n = 3`), the loader loop terminates by end-of-data with
3 records pending in its batch, and sends nothing at all: the partial batch is
dropped, not emitted (the same happens when a malformed record ends the loop).
The claimed behaviour would have produced `[[(), (), ()]]`. -/
theorem load_drops_pending_batch_at_end_of_data :
    load_batches [some (), some (), some ()] (effective_total 0 3) BATCH_SIZE = [] ∧
    load_batches [some (), none, some ()] (effective_total 0 3) BATCH_SIZE = [] ∧
    ([] : List (List Unit)) ≠ [[(), (), ()]] := by
  refine ⟨by decide, by decide, by decide⟩

/-- Claim C3 counterexample: in the end-to-end scenario (`total_points`
1000000, `count_limit` 0, `B` 500000) the loop emits exactly 2 batches of
500000 records each — not 3 batches of sizes 500000/500000/1: with
`count_limit = 0` the effective total equals the reader's total, so
`points_processed > n` never fires and no third batch is ever sent. -/
theorem load_scenario_two_batches :
    (load_batches (List.replicate 1000000 (some ())) (effective_total 0 1000000)
        BATCH_SIZE).map List.length = [500000, 500000] ∧
    [500000, 500000] ≠ [500000, 500000, 1] := by
  constructor
  · have hlen : (List.replicate 1000000 ()).length = 1000000 :=
      List.length_replicate 1000000 ()
    have h := load_loop_lengths (α := Unit) 1000000 500000 (by norm_num) 1000000
      (List.replicate 1000000 ()) (le_of_eq hlen) 0 (Nat.zero_mod _) (Nat.zero_le _)
    rw [hlen] at h
    rw [if_pos (by norm_num : (0 : Nat) + 1000000 ≤ 1000000)] at h
    rw [List.map_replicate] at h
    rw [(by norm_num : (1000000 : Nat) / 500000 = 2)] at h
    exact h.trans rfl
  · decide

/-- Claim C3 (amended): for a reader yielding the well-formed records `ps`,
the batch lengths are: `ps.length / B` full batches (and nothing else — the
trailing partial batch is dropped) if the cutoff is never reached
(`ps.length ≤ n`), and otherwise `(n+1)/B` full batches followed by one final
batch of `(n+1) % B` records (possibly 0), the total then being `n + 1`. -/
theorem load_batches_lengths (ps : List α) (n B : Nat) (hB : 0 < B) :
    (load_batches (ps.map some) n B).map List.length =
      if ps.length ≤ n then List.replicate (ps.length / B) B
      else List.replicate ((n + 1) / B) B ++ [(n + 1) % B] := by
  have h := load_loop_lengths n B hB ps.length ps le_rfl 0 (Nat.zero_mod B) (Nat.zero_le n)
  simpa using h

/-- Witness for `load_batches_lengths` at `ps = [7]`, `n = 0`, `B = 1`. -/
theorem load_batches_lengths_witness :
    (0 : Nat) < 1 ∧
    (load_batches ([(7 : Nat)].map some) 0 1).map List.length =
      (if [(7 : Nat)].length ≤ 0 then List.replicate ([(7 : Nat)].length / 1) 1
        else List.replicate ((0 + 1) / 1) 1 ++ [(0 + 1) % 1]) :=
  ⟨Nat.one_pos, load_batches_lengths [(7 : Nat)] 0 1 Nat.one_pos⟩

/-- Claim C9: every batch the loader emits has length at most `B`, and every
batch except possibly the final one has length exactly `B`. -/
theorem load_batches_sizes (reads : List (Option α)) (n B : Nat) (hB : 0 < B) :
    (∀ b ∈ load_batches reads n B, b.length ≤ B) ∧
    (∀ b ∈ (load_batches reads n B).dropLast, b.length = B) :=
  load_loop_batch_sizes n B hB reads [] (0 : Nat) (by simp)

/-- Witness for `load_batches_sizes` at a concrete input producing two
batches (one full, one final shorter one). -/
theorem load_batches_sizes_witness :
    (0 : Nat) < 2 ∧
    ((∀ b ∈ load_batches [some (0 : Nat), some 1, some 2] 1 2, b.length ≤ 2) ∧
     (∀ b ∈ (load_batches [some (0 : Nat), some 1, some 2] 1 2).dropLast,
        b.length = 2)) :=
  ⟨Nat.zero_lt_two, load_batches_sizes [some (0 : Nat), some 1, some 2] 1 2 Nat.zero_lt_two⟩

/-! ## Basic raster lemmas -/

theorem set_pixel_width (img : Image) (p : Nat × Nat) (c : Rgba) :
    (img.set_pixel p c).width = img.width := rfl

theorem set_pixel_height (img : Image) (p : Nat × Nat) (c : Rgba) :
    (img.set_pixel p c).height = img.height := rfl

theorem set_pixel_wf (img : Image) (p : Nat × Nat) (c : Rgba) (h : img.Wf) :
    (img.set_pixel p c).Wf := by
  unfold Image.Wf at h ⊢
  simpa [Image.set_pixel] using h

theorem set_pixel_inBounds (img : Image) (p q : Nat × Nat) (c : Rgba) :
    (img.set_pixel p c).inBounds q ↔ img.inBounds q := Iff.rfl

theorem pixel_index_lt (img : Image) (p : Nat × Nat) (hwf : img.Wf)
    (hp : img.inBounds p) : p.2 * img.width + p.1 < img.data.length := by
  obtain ⟨h1, h2⟩ := hp
  have hrow : p.2 * img.width + p.1 < (p.2 + 1) * img.width := by
    rw [Nat.succ_mul]; omega
  have hcol : (p.2 + 1) * img.width ≤ img.height * img.width :=
    Nat.mul_le_mul_right _ (by omega)
  rw [hwf, Nat.mul_comm img.width img.height]
  exact lt_of_lt_of_le hrow hcol

theorem pixel_index_inj (img : Image) (p q : Nat × Nat)
    (hp : img.inBounds p) (hq : img.inBounds q)
    (h : p.2 * img.width + p.1 = q.2 * img.width + q.1) : p = q := by
  obtain ⟨hp1, hp2⟩ := hp
  obtain ⟨hq1, hq2⟩ := hq
  have e1 : (p.1 + img.width * p.2) % img.width = p.1 := by
    rw [Nat.add_mul_mod_self_left, Nat.mod_eq_of_lt hp1]
  have e2 : (q.1 + img.width * q.2) % img.width = q.1 := by
    rw [Nat.add_mul_mod_self_left, Nat.mod_eq_of_lt hq1]
  have h' : p.1 + img.width * p.2 = q.1 + img.width * q.2 := by
    have c1 := Nat.mul_comm img.width p.2
    have c2 := Nat.mul_comm img.width q.2
    omega
  have hx : p.1 = q.1 := by rw [← e1, ← e2, h']
  have hy : p.2 = q.2 := by
    have hw : 0 < img.width := by omega
    have : img.width * p.2 = img.width * q.2 := by omega
    exact Nat.eq_of_mul_eq_mul_left hw this
  exact Prod.ext hx hy

theorem get_pixel_set_self (img : Image) (p : Nat × Nat) (c : Rgba)
    (hwf : img.Wf) (hp : img.inBounds p) :
    (img.set_pixel p c).get_pixel p = c := by
  unfold Image.get_pixel Image.set_pixel
  simp only
  rw [List.getD_eq_getElem?_getD, List.getElem?_set_self (pixel_index_lt img p hwf hp)]
  rfl

theorem get_pixel_set_other (img : Image) (p q : Nat × Nat) (c : Rgba)
    (hp : img.inBounds p) (hq : img.inBounds q) (hne : q ≠ p) :
    (img.set_pixel p c).get_pixel q = img.get_pixel q := by
  have hidx : p.2 * img.width + p.1 ≠ q.2 * img.width + q.1 :=
    fun h => hne (pixel_index_inj img p q hp hq h).symm
  unfold Image.get_pixel Image.set_pixel
  simp only
  rw [List.getD_eq_getElem?_getD, List.getD_eq_getElem?_getD,
    List.getElem?_set_ne hidx]

theorem count_set_pixel (img : Image) (p : Nat × Nat) (t : Rgba)
    (hwf : img.Wf) (hp : img.inBounds p) (hc : img.get_pixel p ≠ t) :
    ((img.set_pixel p t).data.count (img.get_pixel p)) + 1 =
      img.data.count (img.get_pixel p) := by
  have hlt := pixel_index_lt img p hwf hp
  have hget : img.data[p.2 * img.width + p.1] = img.get_pixel p := by
    unfold Image.get_pixel
    rw [List.getD_eq_getElem?_getD, List.getElem?_eq_getElem hlt]
    rfl
  have hpos : 0 < img.data.count (img.get_pixel p) :=
    List.count_pos_iff.mpr (by rw [← hget]; exact List.getElem_mem hlt)
  have hdata : (img.set_pixel p t).data = img.data.set (p.2 * img.width + p.1) t := rfl
  rw [hdata, List.count_set _ _ _ _ hlt, hget]
  rw [if_pos (beq_self_eq_true (img.get_pixel p))]
  have hne : (t == img.get_pixel p) = false := by
    simpa using fun h => hc h.symm
  rw [if_neg (by rw [hne]; simp : ¬((t == img.get_pixel p) = true))]
  omega

/-! ## Reachability lemmas for the flood fill -/

theorem reaches_target (img : Image) (c : Rgba) (s p : Nat × Nat)
    (h : Reaches img c s p) : img.inBounds p ∧ img.get_pixel p = c := by
  cases h with
  | refl h hc => exact ⟨h, hc⟩
  | step q r hq ha hr hc => exact ⟨hr, hc⟩

theorem reaches_source (img : Image) (c : Rgba) (s p : Nat × Nat)
    (h : Reaches img c s p) : img.inBounds s ∧ img.get_pixel s = c := by
  induction h with
  | refl h hc => exact ⟨h, hc⟩
  | step q r hq ha hr hc ih => exact ih

theorem reaches_trans (img : Image) (c : Rgba) (a b d : Nat × Nat)
    (h1 : Reaches img c a b) (h2 : Reaches img c b d) : Reaches img c a d := by
  induction h2 with
  | refl h hc => exact h1
  | step q r hq ha hr hc ih => exact Reaches.step q r ih ha hr hc

theorem mem_neighbor_pushes (img : Image) (p n : Nat × Nat)
    (hp : img.inBounds p) :
    n ∈ neighbor_pushes img p ↔ (Adj p n ∧ img.inBounds n) := by
  obtain ⟨hp1, hp2⟩ := hp
  by_cases c1 : 0 < p.1 <;> by_cases c2 : 0 < p.2 <;>
    by_cases c3 : p.1 < img.width - 1 <;> by_cases c4 : p.2 < img.height - 1 <;>
    simp [neighbor_pushes, Adj, Image.inBounds, c1, c2, c3, c4, Prod.ext_iff] <;>
    omega

theorem neighbor_pushes_length (img : Image) (p : Nat × Nat) :
    (neighbor_pushes img p).length ≤ 4 := by
  by_cases c1 : 0 < p.1 <;> by_cases c2 : 0 < p.2 <;>
    by_cases c3 : p.1 < img.width - 1 <;> by_cases c4 : p.2 < img.height - 1 <;>
    simp [neighbor_pushes, c1, c2, c3, c4]

theorem reachFrom_cons_of_ne (img : Image) (c : Rgba) (q : Nat × Nat)
    (rest : List (Nat × Nat)) (p : Nat × Nat) (hq : img.get_pixel q ≠ c) :
    ReachFrom img c (q :: rest) p ↔ ReachFrom img c rest p := by
  constructor
  · rintro ⟨s, hs, hreach⟩
    rcases List.mem_cons.mp hs with rfl | hs2
    · exact absurd (reaches_source img c s p hreach).2 hq
    · exact ⟨s, hs2, hreach⟩
  · rintro ⟨s, hs, hreach⟩
    exact ⟨s, List.mem_cons_of_mem _ hs, hreach⟩

/-- Recolouring the popped pixel `q` and pushing its in-bounds neighbours:
how a path of seed-coloured pixels survives.  Either the path ran through `q`
— then its suffix after the last visit of `q` starts at a pushed neighbour —
or it avoided `q` entirely. -/
theorem reaches_after_recolor (img : Image) (c t : Rgba) (q s p : Nat × Nat)
    (hwf : img.Wf) (hq : img.inBounds q) (hct : c ≠ t)
    (h : Reaches img c s p) (hpq : p ≠ q) :
    (∃ m, Adj q m ∧ img.inBounds m ∧ Reaches (img.set_pixel q t) c m p) ∨
    (s ≠ q ∧ Reaches (img.set_pixel q t) c s p) := by
  induction h with
  | refl hin hc =>
    right
    refine ⟨hpq, Reaches.refl hin ?_⟩
    rw [get_pixel_set_other img q _ t hq hin hpq]
    exact hc
  | step q2 r hq2 ha hr hc ih =>
    have hrc : (img.set_pixel q t).get_pixel r = c := by
      rw [get_pixel_set_other img q r t hq hr hpq]
      exact hc
    by_cases hq2q : q2 = q
    · subst hq2q
      exact Or.inl ⟨r, ha, hr, Reaches.refl hr hrc⟩
    · rcases ih hq2q with ⟨m, hm1, hm2, hm3⟩ | ⟨hs, hreach⟩
      · exact Or.inl ⟨m, hm1, hm2, Reaches.step _ _ hm3 ha hr hrc⟩
      · exact Or.inr ⟨hs, Reaches.step _ _ hreach ha hr hrc⟩

/-- Paths in the recoloured image avoid `q` (it now has the target colour),
so they are also paths in the original image. -/
theorem reaches_before_recolor (img : Image) (c t : Rgba) (q s p : Nat × Nat)
    (hwf : img.Wf) (hq : img.inBounds q) (hct : c ≠ t)
    (h : Reaches (img.set_pixel q t) c s p) : Reaches img c s p := by
  have hqt : (img.set_pixel q t).get_pixel q = t := get_pixel_set_self img q t hwf hq
  induction h with
  | refl hin hc =>
    have hsq : s ≠ q := by
      intro e
      rw [e, hqt] at hc
      exact hct hc.symm
    refine Reaches.refl hin ?_
    rw [← get_pixel_set_other img q s t hq hin hsq]
    exact hc
  | step q2 r hq2 ha hr hc ih =>
    have hrq : r ≠ q := by
      intro e
      rw [e, hqt] at hc
      exact hct hc.symm
    refine Reaches.step _ _ ih ha hr ?_
    rw [← get_pixel_set_other img q r t hq hr hrq]
    exact hc

/-- The loop-step invariant: after popping a seed-coloured pixel `q`,
recolouring it and pushing its in-bounds neighbours, the set of pixels
reachable from the stack loses exactly `q`. -/
theorem reachFrom_recolor (img : Image) (c t : Rgba) (q : Nat × Nat)
    (rest : List (Nat × Nat)) (p : Nat × Nat)
    (hwf : img.Wf) (hq : img.inBounds q) (hqc : img.get_pixel q = c)
    (hct : c ≠ t) (hpq : p ≠ q) :
    ReachFrom img c (q :: rest) p ↔
      ReachFrom (img.set_pixel q t) c ((neighbor_pushes img q).reverse ++ rest) p := by
  constructor
  · rintro ⟨s, hs, hreach⟩
    rcases reaches_after_recolor img c t q s p hwf hq hct hreach hpq with
      ⟨m, hm1, hm2, hm3⟩ | ⟨hsq, hreach1⟩
    · refine ⟨m, List.mem_append.mpr (Or.inl ?_), hm3⟩
      rw [List.mem_reverse]
      exact (mem_neighbor_pushes img q m hq).mpr ⟨hm1, hm2⟩
    · rcases List.mem_cons.mp hs with rfl | hs2
      · exact absurd rfl hsq
      · exact ⟨s, List.mem_append.mpr (Or.inr hs2), hreach1⟩
  · rintro ⟨s, hs, hreach⟩
    have hreach0 : Reaches img c s p :=
      reaches_before_recolor img c t q s p hwf hq hct hreach
    rcases List.mem_append.mp hs with hs1 | hs2
    · rw [List.mem_reverse] at hs1
      obtain ⟨ha, hin⟩ := (mem_neighbor_pushes img q s hq).mp hs1
      have h1 : Reaches img c q s :=
        Reaches.step q s (Reaches.refl hq hqc) ha hin
          (reaches_source img c s p hreach0).2
      exact ⟨q, List.mem_cons_self _ _, reaches_trans img c q s p h1 hreach0⟩
    · exact ⟨s, List.mem_cons_of_mem _ hs2, hreach0⟩

/-- Full specification of the work-stack loop: with fuel exceeding the
measure `5 * (seed-coloured pixel count) + stack length` it terminates, and
the resulting raster has the target colour exactly on the pixels reachable
from the stack through seed-coloured pixels, all other pixels unchanged. -/
theorem flood_loop_spec (c t : Rgba) (hct : c ≠ t) :
    ∀ (fuel : Nat) (img : Image) (stack : List (Nat × Nat)),
    img.Wf → (∀ p ∈ stack, img.inBounds p) →
    5 * img.data.count c + stack.length < fuel →
    ∃ img2, flood_loop c t fuel img stack = some img2 ∧
      img2.width = img.width ∧ img2.height = img.height ∧ img2.Wf ∧
      (∀ p, img.inBounds p → ReachFrom img c stack p → img2.get_pixel p = t) ∧
      (∀ p, img.inBounds p → ¬ReachFrom img c stack p →
        img2.get_pixel p = img.get_pixel p) := by
  intro fuel
  induction fuel with
  | zero =>
    intro img stack _ _ h
    omega
  | succ fuel ih =>
    intro img stack hwf hst hfuel
    match stack with
    | [] =>
      refine ⟨img, rfl, rfl, rfl, hwf, ?_, fun p _ _ => rfl⟩
      rintro p _ ⟨s, hs, _⟩
      simp at hs
    | q :: rest =>
      have hqin : img.inBounds q := hst q (List.mem_cons_self _ _)
      by_cases hqc : img.get_pixel q = c
      · -- recolour branch
        set img1 := img.set_pixel q t with himg1
        set stack1 := (neighbor_pushes img q).reverse ++ rest with hstack1
        have hwf1 : img1.Wf := set_pixel_wf img q t hwf
        have hst1 : ∀ p ∈ stack1, img1.inBounds p := by
          intro p hp
          rcases List.mem_append.mp hp with hp1 | hp2
          · rw [List.mem_reverse] at hp1
            exact ((mem_neighbor_pushes img q p hqin).mp hp1).2
          · exact hst p (List.mem_cons_of_mem _ hp2)
        have hcount : img1.data.count c + 1 = img.data.count c := by
          have := count_set_pixel img q t hwf hqin (by rw [hqc]; exact hct)
          rw [hqc] at this
          exact this
        have hlen1 : stack1.length ≤ 4 + rest.length := by
          have := neighbor_pushes_length img q
          simp only [hstack1, List.length_append, List.length_reverse]
          omega
        have hfuel1 : 5 * img1.data.count c + stack1.length < fuel := by
          simp only [List.length_cons] at hfuel
          omega
        obtain ⟨img2, heq, hw, hh, hwf2, hpos, hneg⟩ := ih img1 stack1 hwf1 hst1 hfuel1
        have hloop : flood_loop c t (fuel + 1) img (q :: rest) =
            flood_loop c t fuel img1 stack1 := by
          simp only [flood_loop]
          rw [if_neg (by simpa using hqc)]
        have hqreach : ReachFrom img c (q :: rest) q :=
          ⟨q, List.mem_cons_self _ _, Reaches.refl hqin hqc⟩
        refine ⟨img2, hloop.trans heq, hw.trans (set_pixel_width img q t),
          hh.trans (set_pixel_height img q t), hwf2, ?_, ?_⟩
        · intro p hp hreach
          by_cases hpq : p = q
          · subst hpq
            rcases Classical.em (ReachFrom img1 c stack1 p) with hr1 | hr1
            · exact hpos p hp hr1
            · rw [hneg p hp hr1]
              exact get_pixel_set_self img p t hwf hqin
          · have hr1 := (reachFrom_recolor img c t q rest p hwf hqin hqc hct hpq).mp hreach
            exact hpos p hp hr1
        · intro p hp hreach
          have hpq : p ≠ q := fun e => hreach (e ▸ hqreach)
          have hr1 := (reachFrom_recolor img c t q rest p hwf hqin hqc hct hpq).not.mp hreach
          rw [hneg p hp hr1]
          exact get_pixel_set_other img q p t hqin hp hpq
      · -- skip branch
        have hrec := ih img rest hwf (fun p hp => hst p (List.mem_cons_of_mem _ hp))
          (by simp only [List.length_cons] at hfuel; omega)
        obtain ⟨img2, heq, hw, hh, hwf2, hpos, hneg⟩ := hrec
        have hloop : flood_loop c t (fuel + 1) img (q :: rest) =
            flood_loop c t fuel img rest := by
          simp only [flood_loop]
          rw [if_pos (by simpa using hqc)]
        refine ⟨img2, hloop.trans heq, hw, hh, hwf2, ?_, ?_⟩
        · intro p hp hreach
          exact hpos p hp ((reachFrom_cons_of_ne img c q rest p hqc).mp hreach)
        · intro p hp hreach
          exact hneg p hp ((reachFrom_cons_of_ne img c q rest p hqc).not.mp hreach)

theorem flood_fill_eq_loop (img : Image) (start : Nat × Nat) (target : Rgba)
    (hin : img.inBounds start)
    (hguard : img.get_pixel start ≠ outline_black ∧ img.get_pixel start ≠ target) :
    flood_fill img start target =
      flood_loop (img.get_pixel start) target
        (flood_fuel img (img.get_pixel start)) img [start] := by
  unfold flood_fill Image.read_pixel
  rw [if_pos hin]
  simp only [Option.some_bind]
  rw [if_pos hguard]

theorem flood_fill_noop (img : Image) (start : Nat × Nat) (target : Rgba)
    (hin : img.inBounds start)
    (h : img.get_pixel start = outline_black ∨ img.get_pixel start = target) :
    flood_fill img start target = some img := by
  unfold flood_fill Image.read_pixel
  rw [if_pos hin]
  simp only [Option.some_bind]
  rw [if_neg (by rcases h with h | h <;> simp [h])]

/-- Full specification of `flood_fill` when the guard passes: the result
recolours exactly the 4-connected seed-coloured component of the start pixel
to the target colour and changes nothing else. -/
theorem flood_fill_spec (img : Image) (start : Nat × Nat) (target : Rgba)
    (hwf : img.Wf) (hin : img.inBounds start)
    (hb : img.get_pixel start ≠ outline_black)
    (ht : img.get_pixel start ≠ target) :
    ∃ img2, flood_fill img start target = some img2 ∧
      img2.width = img.width ∧ img2.height = img.height ∧ img2.Wf ∧
      (∀ p, img.inBounds p → Reaches img (img.get_pixel start) start p →
        img2.get_pixel p = target) ∧
      (∀ p, img.inBounds p → ¬Reaches img (img.get_pixel start) start p →
        img2.get_pixel p = img.get_pixel p) := by
  have hfuel : 5 * img.data.count (img.get_pixel start) +
      ([start] : List (Nat × Nat)).length < flood_fuel img (img.get_pixel start) := by
    unfold flood_fuel
    simp only [List.length_singleton]
    omega
  obtain ⟨img2, heq, hw, hh, hwf2, hpos, hneg⟩ :=
    flood_loop_spec (img.get_pixel start) target ht
      (flood_fuel img (img.get_pixel start)) img [start] hwf
      (by
        intro p hp
        rcases List.mem_singleton.mp hp with rfl
        exact hin)
      hfuel
  refine ⟨img2, (flood_fill_eq_loop img start target hin ⟨hb, ht⟩).trans heq,
    hw, hh, hwf2, ?_, ?_⟩
  · intro p hp hr
    exact hpos p hp ⟨start, List.mem_singleton_self _, hr⟩
  · intro p hp hr
    refine hneg p hp ?_
    rintro ⟨s, hs, hreach⟩
    rcases List.mem_singleton.mp hs with rfl
    exact hr hreach

/-- Claim C7: for every well-formed raster and every in-bounds seed the
stack-based flood-fill loop terminates (the fuel `5 * seedCount + 2` charged
by `flood_fill` is never exhausted: each iteration pops one entry and pushes
at most four neighbours only when it recolours a seed-coloured pixel to the
distinct target colour, so `5 * seedCount + stackLength` strictly
decreases). -/
theorem flood_fill_terminates (img : Image) (start : Nat × Nat) (target : Rgba)
    (hwf : img.Wf) (hin : img.inBounds start) :
    (flood_fill img start target).isSome := by
  by_cases hg : img.get_pixel start ≠ outline_black ∧ img.get_pixel start ≠ target
  · obtain ⟨img2, heq, _⟩ := flood_fill_spec img start target hwf hin hg.1 hg.2
    rw [heq]
    rfl
  · rw [flood_fill_noop img start target hin (by tauto)]
    rfl

/-- Witness for `flood_fill_terminates` on the concrete 2×2 raster. -/
theorem flood_fill_terminates_witness :
    tiny2.Wf ∧ tiny2.inBounds (0, 0) ∧
    (flood_fill tiny2 (0, 0) blue_label).isSome :=
  ⟨by decide, by decide,
    flood_fill_terminates tiny2 (0, 0) blue_label (by decide) (by decide)⟩

/-- Claim C5: the flood fill never recolours an outline-black pixel: it is a
no-op when the seed pixel is outline black or already has the target colour,
and otherwise only pixels of the (non-black) seed colour are ever recoloured,
so every black pixel keeps its colour. -/
theorem flood_fill_never_recolors_black (img : Image) (start : Nat × Nat)
    (target : Rgba) (img2 : Image) (hwf : img.Wf) (hin : img.inBounds start)
    (hrun : flood_fill img start target = some img2) :
    (img.get_pixel start = outline_black ∨ img.get_pixel start = target →
      img2 = img) ∧
    (∀ p, img.inBounds p → img.get_pixel p = outline_black →
      img2.get_pixel p = outline_black) := by
  constructor
  · intro h
    rw [flood_fill_noop img start target hin h] at hrun
    exact (Option.some.inj hrun).symm
  · intro p hp hpb
    by_cases hg : img.get_pixel start ≠ outline_black ∧ img.get_pixel start ≠ target
    · obtain ⟨img2', heq, _, _, _, hpos, hneg⟩ :=
        flood_fill_spec img start target hwf hin hg.1 hg.2
      rw [heq] at hrun
      obtain rfl : img2' = img2 := Option.some.inj hrun
      have hnr : ¬Reaches img (img.get_pixel start) start p := by
        intro hr
        have h2 := (reaches_target img _ start p hr).2
        rw [hpb] at h2
        exact hg.1 h2.symm
      rw [hneg p hp hnr]
      exact hpb
    · rw [flood_fill_noop img start target hin (by tauto)] at hrun
      obtain rfl : img = img2 := Option.some.inj hrun
      exact hpb

/-- Witness for `flood_fill_never_recolors_black` on the concrete 2×2
raster whose pixel (1,0) is outline black. -/
theorem flood_fill_never_recolors_black_witness :
    tiny2.Wf ∧ tiny2.inBounds (0, 0) ∧
    flood_fill tiny2 (0, 0) blue_label =
      some ⟨2, 2, [blue_label, outline_black, blue_label, blue_label]⟩ ∧
    ((tiny2.get_pixel (0, 0) = outline_black ∨
        tiny2.get_pixel (0, 0) = blue_label →
        (⟨2, 2, [blue_label, outline_black, blue_label, blue_label]⟩ : Image) = tiny2) ∧
      (∀ p, tiny2.inBounds p → tiny2.get_pixel p = outline_black →
        (⟨2, 2, [blue_label, outline_black, blue_label, blue_label]⟩ : Image).get_pixel p
          = outline_black)) :=
  ⟨by decide, by decide, by decide,
    flood_fill_never_recolors_black tiny2 (0, 0) blue_label
      ⟨2, 2, [blue_label, outline_black, blue_label, blue_label]⟩
      (by decide) (by decide) (by decide)⟩

/-- Claim C4: on a 4-connected region `S` of uniform non-black colour bounded
entirely by outline-black pixels (or the raster edge), a flood fill seeded at
any pixel of `S` recolours exactly `S` to the target colour and changes no
other pixel. -/
theorem flood_fill_region (img : Image) (S : List (Nat × Nat))
    (start : Nat × Nat) (c target : Rgba)
    (hwf : img.Wf) (hstart : start ∈ S)
    (hcol : ∀ p ∈ S, img.inBounds p ∧ img.get_pixel p = c)
    (hcb : c ≠ outline_black)
    (hconn : ∀ p ∈ S, ConnIn S start p)
    (hbound : ∀ p ∈ S, ∀ q, Adj p q → q ∉ S →
      ¬img.inBounds q ∨ img.get_pixel q = outline_black) :
    ∃ img2, flood_fill img start target = some img2 ∧
      (∀ p, p ∈ S → img2.get_pixel p = target) ∧
      (∀ p, img.inBounds p → p ∉ S → img2.get_pixel p = img.get_pixel p) := by
  obtain ⟨hsin, hsc⟩ := hcol start hstart
  have hreach_of_mem : ∀ p, ConnIn S start p → Reaches img c start p := by
    intro p hconnp
    induction hconnp with
    | refl => exact Reaches.refl hsin hsc
    | step q r hq ha hr ih =>
      obtain ⟨hrin, hrc⟩ := hcol r hr
      exact Reaches.step q r ih ha hrin hrc
  have hmem_of_reach : ∀ p, Reaches img c start p → p ∈ S := by
    intro p hr
    induction hr with
    | refl _ _ => exact hstart
    | step q r hq ha hrin hrc ih =>
      by_contra hrS
      rcases hbound q ih r ha hrS with hnb | hb
      · exact hnb hrin
      · rw [hb] at hrc
        exact hcb hrc.symm
  by_cases hct : c = target
  · refine ⟨img, flood_fill_noop img start target hsin (Or.inr (by rw [hsc, hct])),
      ?_, ?_⟩
    · intro p hp
      rw [(hcol p hp).2, hct]
    · intro p _ _
      rfl
  · obtain ⟨img2, heq, _, _, _, hpos, hneg⟩ :=
      flood_fill_spec img start target hwf hsin (by rw [hsc]; exact hcb)
        (by rw [hsc]; exact hct)
    refine ⟨img2, heq, ?_, ?_⟩
    · intro p hp
      refine hpos p (hcol p hp).1 ?_
      rw [hsc]
      exact hreach_of_mem p (hconn p hp)
    · intro p hpin hpS
      refine hneg p hpin ?_
      intro hr
      rw [hsc] at hr
      exact hpS (hmem_of_reach p hr)

/-- Witness for `flood_fill_region`: the spec's 10×10 scenario — filling the
centre (4,4) of the black-bordered square with blue recolours exactly the
1×1 interior and leaves the border black and the exterior white. -/
theorem flood_fill_region_witness :
    ∃ img2, flood_fill demo10 (4, 4) blue_label = some img2 ∧
      (∀ p, p ∈ [((4 : Nat), (4 : Nat))] → img2.get_pixel p = blue_label) ∧
      (∀ p, demo10.inBounds p → p ∉ [((4 : Nat), (4 : Nat))] →
        img2.get_pixel p = demo10.get_pixel p) :=
  flood_fill_region demo10 [(4, 4)] (4, 4) demo_white blue_label
    (by decide)
    (by decide)
    (by decide)
    (by decide)
    (by
      intro p hp
      rcases List.mem_singleton.mp hp with rfl
      exact ConnIn.refl)
    (by
      intro p hp q ha hq
      rcases List.mem_singleton.mp hp with rfl
      obtain ⟨q1, q2⟩ := q
      right
      rcases ha with ⟨h1, h2⟩ | ⟨h1, h2⟩ | ⟨h1, h2⟩ | ⟨h1, h2⟩
      · have e1 : q1 = 5 := by simpa using h1
        have e2 : q2 = 4 := by simpa using h2
        subst e1; subst e2
        decide
      · have e1 : q1 = 3 := by simp at h1; omega
        have e2 : q2 = 4 := by simpa using h2
        subst e1; subst e2
        decide
      · have e1 : q2 = 5 := by simpa using h1
        have e2 : q1 = 4 := by simpa using h2
        subst e1; subst e2
        decide
      · have e1 : q2 = 3 := by simp at h1; omega
        have e2 : q1 = 4 := by simpa using h2
        subst e1; subst e2
        decide)

/-! ## Stamping lemmas (`put_list`) -/

theorem image_eq (a b : Image) (hw : a.width = b.width)
    (hh : a.height = b.height) (hd : a.data = b.data) : a = b := by
  cases a
  cases b
  simp_all

theorem inBounds_of_dims (a b : Image) (hw : a.width = b.width)
    (hh : a.height = b.height) (p : Nat × Nat) :
    a.inBounds p ↔ b.inBounds p := by
  unfold Image.inBounds
  rw [hw, hh]

theorem put_list_isSome_iff (c : Rgba) :
    ∀ (l : List (Nat × Nat)) (img : Image),
    (put_list c img l).isSome ↔ ∀ p ∈ l, img.inBounds p := by
  intro l
  induction l with
  | nil =>
    intro img
    simp [put_list]
  | cons p rest ih =>
    intro img
    unfold put_list Image.put_pixel
    by_cases hp : img.inBounds p
    · rw [if_pos hp]
      simp only [Option.some_bind]
      rw [ih (img.set_pixel p c)]
      constructor
      · intro h q hq
        rcases List.mem_cons.mp hq with rfl | hq2
        · exact hp
        · exact h q hq2
      · intro h q hq
        exact h q (List.mem_cons_of_mem _ hq)
    · rw [if_neg hp]
      simp only [Option.none_bind, Option.isSome_none]
      constructor
      · intro h
        simp at h
      · intro h
        exact absurd (h p (List.mem_cons_self _ _)) hp

theorem put_list_spec (c : Rgba) :
    ∀ (l : List (Nat × Nat)) (img img2 : Image),
    put_list c img l = some img2 →
    img2.width = img.width ∧ img2.height = img.height ∧
    img2.data.length = img.data.length ∧
    (∀ i, i < img.data.length → (∃ p ∈ l, i = p.2 * img.width + p.1) →
      img2.data[i]? = some c) ∧
    (∀ i, (¬∃ p ∈ l, i = p.2 * img.width + p.1) →
      img2.data[i]? = img.data[i]?) := by
  intro l
  induction l with
  | nil =>
    intro img img2 h
    obtain rfl : img = img2 := Option.some.inj h
    refine ⟨rfl, rfl, rfl, ?_, fun i _ => rfl⟩
    rintro i _ ⟨p, hp, _⟩
    simp at hp
  | cons p rest ih =>
    intro img img2 h
    unfold put_list Image.put_pixel at h
    by_cases hp : img.inBounds p
    · rw [if_pos hp] at h
      simp only [Option.some_bind] at h
      obtain ⟨hw, hh, hlen, hset, hkeep⟩ := ih (img.set_pixel p c) img2 h
      have hw' : (img.set_pixel p c).width = img.width := rfl
      have hh' : (img.set_pixel p c).height = img.height := rfl
      have hlen' : (img.set_pixel p c).data.length = img.data.length :=
        List.length_set _ _ _
      refine ⟨hw.trans hw', hh.trans hh', hlen.trans hlen', ?_, ?_⟩
      · intro i hi hex
        by_cases hirest : ∃ q ∈ rest, i = q.2 * img.width + q.1
        · exact hset i (by omega) (by simpa [hw'] using hirest)
        · obtain ⟨q, hq, hiq⟩ := hex
          rcases List.mem_cons.mp hq with rfl | hq2
          · rw [hkeep i (by simpa [hw'] using hirest)]
            subst hiq
            show (img.data.set (q.2 * img.width + q.1) c)[q.2 * img.width + q.1]? = some c
            exact List.getElem?_set_self hi
          · exact absurd ⟨q, hq2, hiq⟩ hirest
      · intro i hex
        have hirest : ¬∃ q ∈ rest, i = q.2 * img.width + q.1 := by
          intro ⟨q, hq, hiq⟩
          exact hex ⟨q, List.mem_cons_of_mem _ hq, hiq⟩
        have hip : i ≠ p.2 * img.width + p.1 := by
          intro hiq
          exact hex ⟨p, List.mem_cons_self _ _, hiq⟩
        rw [hkeep i (by simpa [hw'] using hirest)]
        show (img.data.set (p.2 * img.width + p.1) c)[i]? = img.data[i]?
        exact List.getElem?_set_ne (fun e => hip e.symm)
    · rw [if_neg hp] at h
      simp at h

/-- The full stamped raster is determined by the SET of stamped coordinates:
stamping a list and stamping any permutation of it give the same result. -/
theorem put_list_perm (c : Rgba) (img : Image) (l l2 : List (Nat × Nat))
    (hperm : l.Perm l2) :
    put_list c img l = put_list c img l2 := by
  have hmem : ∀ p, p ∈ l ↔ p ∈ l2 := fun p => hperm.mem_iff
  rcases h1 : put_list c img l with _ | img2
  · rcases h2 : put_list c img l2 with _ | img3
    · rfl
    · exfalso
      have hs2 : (put_list c img l2).isSome := by rw [h2]; rfl
      have hs1 : (put_list c img l).isSome := by
        rw [put_list_isSome_iff]
        intro p hp
        exact ((put_list_isSome_iff c l2 img).mp hs2) p ((hmem p).mp hp)
      rw [h1] at hs1
      exact absurd hs1 (by simp)
  · rcases h2 : put_list c img l2 with _ | img3
    · exfalso
      have hs1 : (put_list c img l).isSome := by rw [h1]; rfl
      have hs2 : (put_list c img l2).isSome := by
        rw [put_list_isSome_iff]
        intro p hp
        exact ((put_list_isSome_iff c l img).mp hs1) p ((hmem p).mpr hp)
      rw [h2] at hs2
      exact absurd hs2 (by simp)
    · obtain ⟨hw1, hh1, hlen1, hset1, hkeep1⟩ := put_list_spec c l img img2 h1
      obtain ⟨hw2, hh2, hlen2, hset2, hkeep2⟩ := put_list_spec c l2 img img3 h2
      refine congrArg some (image_eq img2 img3 (hw1.trans hw2.symm)
        (hh1.trans hh2.symm) ?_)
      apply List.ext_getElem?
      intro i
      by_cases hex : ∃ p ∈ l, i = p.2 * img.width + p.1
      · by_cases hi : i < img.data.length
        · rw [hset1 i hi hex, hset2 i hi ?_]
          obtain ⟨p, hp, hip⟩ := hex
          exact ⟨p, (hmem p).mp hp, hip⟩
        · have e1 : img2.data[i]? = none :=
            List.getElem?_eq_none (by omega)
          have e2 : img3.data[i]? = none :=
            List.getElem?_eq_none (by omega)
          rw [e1, e2]
      · have hex2 : ¬∃ p ∈ l2, i = p.2 * img.width + p.1 := by
          intro ⟨p, hp, hip⟩
          exact hex ⟨p, (hmem p).mpr hp, hip⟩
        rw [hkeep1 i hex, hkeep2 i hex2]

/-- Stamping the same coordinates a second time changes nothing: every stamped
position already holds `c`. -/
theorem put_list_idem (c : Rgba) (img img2 : Image) (l : List (Nat × Nat))
    (h : put_list c img l = some img2) :
    put_list c img2 l = some img2 := by
  obtain ⟨hw, hh, hlen, hset, hkeep⟩ := put_list_spec c l img img2 h
  have hs1 : (put_list c img l).isSome := by rw [h]; rfl
  have hs2 : (put_list c img2 l).isSome := by
    rw [put_list_isSome_iff]
    intro p hp
    exact (inBounds_of_dims img2 img hw hh p).mpr
      (((put_list_isSome_iff c l img).mp hs1) p hp)
  rcases h2 : put_list c img2 l with _ | img3
  · rw [h2] at hs2
    exact absurd hs2 (by simp)
  · obtain ⟨hw2, hh2, hlen2, hset2, hkeep2⟩ := put_list_spec c l img2 img3 h2
    refine congrArg some (image_eq img3 img2 hw2 hh2 ?_)
    apply List.ext_getElem?
    intro i
    have hcond : (∃ p ∈ l, i = p.2 * img2.width + p.1) ↔
        (∃ p ∈ l, i = p.2 * img.width + p.1) := by rw [hw]
    by_cases hex : ∃ p ∈ l, i = p.2 * img.width + p.1
    · by_cases hi : i < img.data.length
      · rw [hset2 i (by omega) (hcond.mpr hex), hset i hi hex]
      · rw [List.getElem?_eq_none (l := img3.data) (by omega),
          List.getElem?_eq_none (by omega)]
    · rw [hkeep2 i (fun hx => hex (hcond.mp hx))]

/-! ## Claims about the drawing dispatch -/

/-- Claim C1: out-of-canvas coordinates are NOT clamped or skipped by the
Pencil, the Eraser, or the flood-fill seed read: the `as u32` casts wrap the
negative coordinates and the raster is indexed out of bounds (`put_pixel` /
`get_pixel` panic, here `none`).  Eraser at path pixel (2,2) of a 10×10
raster touches (2,-3); the Pencil path from (-1,0) to (0,0) stamps (-1,0); a
fill seeded at (50,2) reads out of bounds.  Only the flood-fill neighbour
pushes are bounds-checked. -/
theorem draw_tools_index_out_of_bounds :
    eraser_stroke white10 (2, 2) (2, 2) = none ∧
    pencil_stroke white10 (-1, 0) (0, 0) = none ∧
    flood_fill white10 (50, 2) blue_label = none := by
  refine ⟨by decide, by decide, by decide⟩

theorem asU32_of_nonneg (v : Int) (h0 : 0 ≤ v) (hlt : v < 4294967296) :
    asU32 v = v.toNat := by
  unfold asU32
  rw [Int.emod_eq_of_lt h0 hlt]

theorem mem_eraser_offsets (d : Int) : d ∈ eraser_offsets ↔ (-5 ≤ d ∧ d < 5) := by
  constructor
  · intro h
    fin_cases h <;> omega
  · intro h
    have hd : d = -5 ∨ d = -4 ∨ d = -3 ∨ d = -2 ∨ d = -1 ∨ d = 0 ∨ d = 1 ∨
        d = 2 ∨ d = 3 ∨ d = 4 := by omega
    rcases hd with rfl | rfl | rfl | rfl | rfl | rfl | rfl | rfl | rfl | rfl <;> decide

/-- Claim C6 counterexample: at path pixel (5,5) (the degenerate Bresenham
path from (5,5) to (5,5)), the raster pixel (10,5) satisfies
(10-5)² + (5-5)² = 25 ≤ 25 yet is left untouched by the eraser: the loop
`for cx in (lx-5)..(lx+5)` is half-open and stops at `cx = lx+4`. -/
theorem eraser_misses_closed_disk :
    ((5 : Int), (5 : Int)) ∈ bresenham (5, 5) (5, 5) ∧
    ((10 : Int) - 5) * ((10 : Int) - 5) + ((5 : Int) - 5) * ((5 : Int) - 5) ≤ 25 ∧
    (eraser_stamp grey11 (5, 5)).map (fun im => im.get_pixel (10, 5)) =
      some grey_col ∧
    grey_col ≠ clear_white := by
  refine ⟨by decide, by decide, by decide, by decide⟩

/-- Claim C6 (amended): for every path pixel `(lx, ly)` whose eraser box lies
inside the raster, the eraser sets every pixel of the half-open box
`[lx-5, lx+5) × [ly-5, ly+5)` with `(cx-lx)² + (cy-ly)² ≤ 25` to transparent
white — the closed disk minus its rightmost column `cx = lx+5` and bottom row
`cy = ly+5` (so the boundary pixels (lx+5, ly) and (lx, ly+5) are not
erased). -/
theorem eraser_stamp_half_open_disk (img : Image) (l : Int × Int)
    (last pos : Int × Int) (hpath : l ∈ bresenham last pos)
    (hwf : img.Wf)
    (hx5 : 5 ≤ l.1) (hy5 : 5 ≤ l.2)
    (hxw : l.1 + 5 ≤ (img.width : Int)) (hyh : l.2 + 5 ≤ (img.height : Int))
    (hxlt : l.1 + 5 < 4294967296) (hylt : l.2 + 5 < 4294967296) :
    ∃ img2, eraser_stamp img l = some img2 ∧
      ∀ cx cy : Int, l.1 - 5 ≤ cx → cx < l.1 + 5 → l.2 - 5 ≤ cy → cy < l.2 + 5 →
        (cx - l.1) * (cx - l.1) + (cy - l.2) * (cy - l.2) ≤ 25 →
        img2.get_pixel (cx.toNat, cy.toNat) = clear_white := by
  set dl := eraser_offsets.flatMap (fun dy =>
    (eraser_offsets.filter (fun dx => dx * dx + dy * dy ≤ 25)).map
      (fun dx => (asU32 (l.1 + dx), asU32 (l.2 + dy)))) with hdl
  have hmem_dl : ∀ cx cy : Int, l.1 - 5 ≤ cx → cx < l.1 + 5 → l.2 - 5 ≤ cy →
      cy < l.2 + 5 → (cx - l.1) * (cx - l.1) + (cy - l.2) * (cy - l.2) ≤ 25 →
      (cx.toNat, cy.toNat) ∈ dl := by
    intro cx cy h1 h2 h3 h4 h5
    apply List.mem_flatMap.mpr
    refine ⟨cy - l.2, (mem_eraser_offsets _).mpr (by omega), ?_⟩
    apply List.mem_map.mpr
    refine ⟨cx - l.1, ?_, ?_⟩
    · apply List.mem_filter.mpr
      refine ⟨(mem_eraser_offsets _).mpr (by omega), ?_⟩
      exact decide_eq_true (by
        have e1 : l.1 + (cx - l.1) = cx := by ring
        have e2 : l.2 + (cy - l.2) = cy := by ring
        calc (cx - l.1) * (cx - l.1) + (cy - l.2) * (cy - l.2) ≤ 25 := h5)
    · have e1 : l.1 + (cx - l.1) = cx := by ring
      have e2 : l.2 + (cy - l.2) = cy := by ring
      rw [e1, e2, asU32_of_nonneg cx (by omega) (by omega),
        asU32_of_nonneg cy (by omega) (by omega)]
  have hin_dl : ∀ p ∈ dl, img.inBounds p := by
    intro p hp
    obtain ⟨dy, hdy, hp2⟩ := List.mem_flatMap.mp hp
    obtain ⟨dx, hdxf, rfl⟩ := List.mem_map.mp hp2
    obtain ⟨hdx, _⟩ := List.mem_filter.mp hdxf
    rw [mem_eraser_offsets] at hdy hdx
    constructor
    · show asU32 (l.1 + dx) < img.width
      rw [asU32_of_nonneg (l.1 + dx) (by omega) (by omega)]
      omega
    · show asU32 (l.2 + dy) < img.height
      rw [asU32_of_nonneg (l.2 + dy) (by omega) (by omega)]
      omega
  have hsome : (eraser_stamp img l).isSome := by
    unfold eraser_stamp
    rw [put_list_isSome_iff]
    exact hin_dl
  rcases heq : eraser_stamp img l with _ | img2
  · rw [heq] at hsome
    exact absurd hsome (by simp)
  · have heq' : put_list clear_white img dl = some img2 := by
      rw [← heq]
      rfl
    obtain ⟨hw, hh, hlen, hset, hkeep⟩ := put_list_spec clear_white dl img img2 heq'
    refine ⟨img2, rfl, ?_⟩
    intro cx cy h1 h2 h3 h4 h5
    have hpmem := hmem_dl cx cy h1 h2 h3 h4 h5
    have hpin : img.inBounds (cx.toNat, cy.toNat) := hin_dl _ hpmem
    have hidx : cy.toNat * img.width + cx.toNat < img.data.length := by
      have := pixel_index_lt img (cx.toNat, cy.toNat) hwf hpin
      simpa using this
    have hval := hset (cy.toNat * img.width + cx.toNat) hidx
      ⟨(cx.toNat, cy.toNat), hpmem, rfl⟩
    unfold Image.get_pixel
    simp only
    rw [hw, List.getD_eq_getElem?_getD]
    rw [show (cx.toNat, cy.toNat).2 * img.width + (cx.toNat, cy.toNat).1 =
      cy.toNat * img.width + cx.toNat from rfl]
    rw [hval]
    rfl

/-- Witness for `eraser_stamp_half_open_disk`: the stamp at (5,5) on the
11×11 grey raster. -/
theorem eraser_stamp_half_open_disk_witness :
    ((5 : Int), (5 : Int)) ∈ bresenham (5, 5) (5, 5) ∧ grey11.Wf ∧
    (∃ img2, eraser_stamp grey11 (5, 5) = some img2 ∧
      ∀ cx cy : Int, (5 : Int) - 5 ≤ cx → cx < (5 : Int) + 5 →
        (5 : Int) - 5 ≤ cy → cy < (5 : Int) + 5 →
        (cx - 5) * (cx - 5) + (cy - 5) * (cy - 5) ≤ 25 →
        img2.get_pixel (cx.toNat, cy.toNat) = clear_white) :=
  ⟨by decide, by decide,
    eraser_stamp_half_open_disk grey11 (5, 5) (5, 5) (5, 5) (by decide)
      (by decide) (by decide) (by decide) (by decide) (by decide)
      (by decide) (by decide)⟩

/-- Claim C8: the boundary-linking raster does not depend on the order in
which the stamped coordinates are processed (stamping a pixel black is
idempotent and stampings commute), and running the linker twice on the same
boundary-point set and radius query equals running it once. -/
theorem link_boundary_idempotent :
    (∀ (query : List (Int × Int) → Int × Int → List (Int × Int))
        (pts : List (Int × Int)) (img : Image),
        (link_boundary query pts img).bind (link_boundary query pts) =
          link_boundary query pts img) ∧
    (∀ (img : Image) (l l2 : List (Nat × Nat)), l.Perm l2 →
        put_list outline_black img l = put_list outline_black img l2) := by
  constructor
  · intro query pts img
    rcases h : link_boundary query pts img with _ | img2
    · rfl
    · show (some img2).bind (link_boundary query pts) = some img2
      simp only [Option.some_bind]
      unfold link_boundary at h ⊢
      exact put_list_idem outline_black img img2 _ h
  · intro img l l2 hperm
    exact put_list_perm outline_black img l l2 hperm

/-- Witness for `link_boundary_idempotent` at a concrete query, point set and
raster. -/
theorem link_boundary_idempotent_witness :
    ((link_boundary (fun pts _ => pts) [(1, 1)] tiny2).bind
        (link_boundary (fun pts _ => pts) [(1, 1)]) =
      link_boundary (fun pts _ => pts) [(1, 1)] tiny2) ∧
    put_list outline_black tiny2 [(0, 0), (1, 1)] =
      put_list outline_black tiny2 [(1, 1), (0, 0)] :=
  ⟨link_boundary_idempotent.1 (fun pts _ => pts) [(1, 1)] tiny2,
    link_boundary_idempotent.2 tiny2 [(0, 0), (1, 1)] [(1, 1), (0, 0)] (by decide)⟩

/-! ## Claim about MouseManager -/

/-- Claim C10: `on_new_frame` maps `JustPressed` to `Pressed` and
`JustReleased` to `Released` for every button, so after `on_new_frame` no
button is in a `Just*` state and the press edge observed by
RoomIdentification fires at most once per physical press; `update` sets
exactly the reported button to the corresponding `Just*` state; a button
never updated reads as `Released`; and `is_pressed` is true exactly for
`JustPressed` and `Pressed`. -/
theorem mouse_edge_semantics :
    (∀ (m : MouseManager) (b : MouseButton),
       m.on_new_frame.button_state b ≠ MouseButtonState.justPressed ∧
       m.on_new_frame.button_state b ≠ MouseButtonState.justReleased) ∧
    (∀ (m : MouseManager) (b : MouseButton) (s : ElemState) (b2 : MouseButton),
       (m.update b s).button_state b2 =
         if b2 = b then
           match s with
           | ElemState.pressed => MouseButtonState.justPressed
           | ElemState.released => MouseButtonState.justReleased
         else m.button_state b2) ∧
    (∀ b, MouseManager.new.button_state b = MouseButtonState.released) ∧
    (∀ (m : MouseManager) (b : MouseButton),
       m.is_pressed b = true ↔
         (m.button_state b = MouseButtonState.justPressed ∨
          m.button_state b = MouseButtonState.pressed)) ∧
    (∀ (m : MouseManager) (b : MouseButton),
       (m.update b ElemState.pressed).button_state b =
         MouseButtonState.justPressed ∧
       ((m.update b ElemState.pressed).on_new_frame).button_state b =
         MouseButtonState.pressed) := by
  refine ⟨?_, ?_, ?_, ?_, ?_⟩
  · intro m b
    constructor <;>
      (cases h : m.state b <;>
        simp [MouseManager.on_new_frame, MouseManager.button_state, settle_state, h])
  · intro m b s b2
    rfl
  · intro b
    rfl
  · intro m b
    unfold MouseManager.is_pressed MouseManager.button_state
    cases h : m.state b <;> simp [h]
  · intro m b
    constructor
    · simp [MouseManager.update, MouseManager.button_state]
    · simp [MouseManager.update, MouseManager.button_state,
        MouseManager.on_new_frame, settle_state]

/-- Witness for `mouse_edge_semantics` (fifth conjunct at concrete inputs). -/
theorem mouse_edge_semantics_witness :
    (MouseManager.new.update MouseButton.left ElemState.pressed).button_state
        MouseButton.left = MouseButtonState.justPressed ∧
    ((MouseManager.new.update MouseButton.left ElemState.pressed).on_new_frame).button_state
        MouseButton.left = MouseButtonState.pressed :=
  mouse_edge_semantics.2.2.2.2 MouseManager.new MouseButton.left

end PointCloudCutaway
